import Mathlib

/-!
Verification model of the catalog matching engine in
Src/ImageDetector/item_matcher.py (class ItemMatcher).

Modelling conventions:
* Python strings are modelled as lists of characters (abbreviation Str);
  character classes of the regexes are modelled over their ASCII ranges.
* Python float arithmetic on similarity scores is modelled exactly by
  fractions: a score is a pair of an integer numerator and denominator
  (structure Q below); every constructor used by the code keeps the
  denominator positive.  Q.val interprets such a pair in the rationals,
  and bridge lemmas relate the executable operations to field operations.
* The SQLite cursor is modelled by a list of raw rows; only the name
  column takes part in any matching logic, the remaining columns are
  opaque pass-through data, so a raw row is modelled by its optional
  name field.
* difflib.SequenceMatcher.ratio is modelled by its documented contract
  for inputs without junk elements (the strings here are far below the
  200-character autojunk cutoff): repeatedly take the longest matching
  block, with ties broken by the lowest start in the first string and
  then in the second, and sum the block sizes.
-/

/-! ## Exact fraction arithmetic used to model Python floats -/

/-- A fraction: numerator and denominator.  All values built by the model
keep the denominator positive, so comparison by cross multiplication is
the value comparison. -/
structure Q where
  n : Int
  d : Int
deriving DecidableEq

/-- Division of two naturals, as the code does with len-derived counts.
The zero-denominator branch is unreachable in the code paths that use it
(which guard the denominator), and returns 0 like an arbitrary junk value. -/
def qOfFrac (a b : Nat) : Q := if b = 0 then ⟨0, 1⟩ else ⟨a, b⟩

/-- Addition of fractions. -/
def qadd (a b : Q) : Q := ⟨a.n * b.d + b.n * a.d, a.d * b.d⟩

/-- Multiplication of fractions. -/
def qmul (a b : Q) : Q := ⟨a.n * b.n, a.d * b.d⟩

/-- Less-or-equal of fractions by cross multiplication (valid for
positive denominators). -/
def qle (a b : Q) : Bool := decide (a.n * b.d ≤ b.n * a.d)

/-- Strict order of fractions by cross multiplication (valid for
positive denominators). -/
def qlt (a b : Q) : Bool := decide (a.n * b.d < b.n * a.d)

/-- Python min of two floats: the first argument when it is not larger. -/
def qmin (a b : Q) : Q := if qle a b then a else b

/-- Python max of two floats: the first argument when it is not smaller. -/
def qmax (a b : Q) : Q := if qle b a then a else b

/-- The rational value of a fraction. -/
def Q.val (x : Q) : ℚ := (x.n : ℚ) / (x.d : ℚ)

/-- Well-formedness kept by every score the model builds: nonnegative
numerator and positive denominator. -/
def Q.nn (x : Q) : Prop := 0 ≤ x.n ∧ 0 < x.d

/-- A rational given by an explicit normalized fraction; used to supply
concrete thresholds to the executable model. -/
def qlit (n : Int) (d : Nat) (h1 : d ≠ 0) (h2 : n.natAbs.Coprime d) : ℚ :=
  ⟨n, d, h1, h2⟩

/-! ## Strings -/

/-- Python strings, modelled as character lists. -/
abbrev Str := List Char

/-- Character list of a string literal. -/
def str (s : String) : Str := s.data

/-- ASCII whitespace, the class matched by the regex escape for spaces
and by the split and strip methods of Python strings. -/
def wsB (c : Char) : Bool :=
  c.toNat = 32 || (9 ≤ c.toNat && c.toNat ≤ 13)

/-- ASCII word characters: letters, digits and underscore. -/
def isWordChar (c : Char) : Bool :=
  (48 ≤ c.toNat && c.toNat ≤ 57) || (65 ≤ c.toNat && c.toNat ≤ 90) ||
    (97 ≤ c.toNat && c.toNat ≤ 122) || c.toNat = 95

/-- ASCII lowercasing of one character, as str.lower does. -/
def lowerChar (c : Char) : Char :=
  if 65 ≤ c.toNat ∧ c.toNat ≤ 90 then Char.ofNat (c.toNat + 32) else c

/-- One single-character replacement, as str.replace with one-character
arguments acts on each character. -/
def swapChar (a b : Char) (c : Char) : Char := if c = a then b else c

/-- The substitution of the compiled regex clean pattern: every character
that is neither a word character nor whitespace becomes a space. -/
def cleanChar (c : Char) : Char := if isWordChar c || wsB c then c else ' '

/-- The whole character-level phase of the normalizer: lowercase, the
four digit substitutions, then the clean substitution.  Equal to the
composition of the per-step maps. -/
def normChar (c : Char) : Char :=
  cleanChar (swapChar '8' 'b' (swapChar '5' 's' (swapChar '1' 'l'
    (swapChar '0' 'o' (lowerChar c)))))

/-- Python str.strip: drop whitespace from both ends. -/
def stripBoth (s : Str) : Str :=
  ((s.dropWhile wsB).reverse.dropWhile wsB).reverse

/-- Fuelled splitting into maximal nonblank runs; the fuel only needs to
cover the length of the string. -/
def wordsF : Nat → Str → List Str
  | 0, _ => []
  | fuel+1, s =>
    match s with
    | [] => []
    | c :: rest =>
      if wsB c then wordsF fuel rest
      else (c :: rest.takeWhile (fun x => !wsB x)) ::
             wordsF fuel (rest.dropWhile (fun x => !wsB x))

/-- Python str.split with no separator: the maximal nonblank runs. -/
def words (s : Str) : List Str := wordsF s.length s

/-- Join a list of words with single spaces. -/
def joinWords : List Str → Str
  | [] => []
  | [w] => w
  | w :: x :: rest => w ++ ' ' :: joinWords (x :: rest)

/-- Collapsing every whitespace run to one space and stripping the ends,
as the regex substitution on whitespace runs followed by strip does,
equals joining the nonblank runs with single spaces. -/
def squish (s : Str) : Str := joinWords (words s)

/-- Whether the pattern is an initial segment of the string. -/
def leadsWith : Str → Str → Bool
  | [], _ => true
  | _ :: _, [] => false
  | p :: ps, c :: cs => p == c && leadsWith ps cs

/-- Python substring containment (the in operator on strings). -/
def occursIn (pat : Str) : Str → Bool
  | [] => pat.isEmpty
  | c :: rest => leadsWith pat (c :: rest) || occursIn pat rest

/-- Fuelled str.replace with empty replacement: delete the leftmost
occurrences of the pattern, scanning left to right without rescanning
the produced text.  The fuel only needs to cover the string length. -/
def removeAllF : Nat → Str → Str → Str
  | 0, _, s => s
  | fuel+1, pat, s =>
    match s with
    | [] => []
    | c :: rest =>
      if pat ≠ [] ∧ leadsWith pat (c :: rest) = true then
        removeAllF fuel pat ((c :: rest).drop pat.length)
      else c :: removeAllF fuel pat rest

/-- Python text.replace(pat, empty string). -/
def removeAll (pat s : Str) : Str := removeAllF s.length pat s

/-- Split at the first occurrence of a separator character, returning
the parts before and after it; none when the separator is absent. -/
def splitFirst (sep : Char) : Str → Option (Str × Str)
  | [] => none
  | c :: rest =>
    if c = sep then some ([], rest)
    else (splitFirst sep rest).map (fun p => (c :: p.1, p.2))

/-! ## Text normalizer (ItemMatcher.normalize_text) -/

/-- The five wear phrases, already lowercased as the code lowercases them
before replacing. -/
def wearPhrases : List Str :=
  [str "factory new", str "minimal wear", str "field-tested",
   str "well-worn", str "battle-scarred"]

/-- The filler words the normalizer strips as substrings. -/
def fillerWords : List Str :=
  [str "skin", str "weapon", str "case", str "item", str "collection"]

/-- ItemMatcher.normalize_text: lowercase, substitute the confusable
digits, blank out special characters, delete wear phrases and filler
words as substrings, and normalize whitespace. -/
def normalize_text (text : Str) : Str :=
  if text = [] then []
  else
    let lowered := text.map lowerChar
    let digited :=
      (((lowered.map (swapChar '0' 'o')).map (swapChar '1' 'l')).map
          (swapChar '5' 's')).map (swapChar '8' 'b')
    let cleaned := digited.map cleanChar
    let wearless := wearPhrases.foldl (fun t p => removeAll p t) cleaned
    let wordless := fillerWords.foldl (fun t p => removeAll p t) wearless
    squish wordless

/-! ## Name parser (ItemMatcher.parse_item_name) -/

/-- The parse result: a Python dict with up to three optional keys. -/
structure Parts where
  weapon : Option Str := none
  skin : Option Str := none
  wear : Option Str := none
deriving DecidableEq

/-- Python truthiness of an optional string: present and nonempty. -/
def truthy : Option Str → Bool
  | none => false
  | some s => !s.isEmpty

/-- The dollar anchor of the wear regex also matches just before one
final newline; the search effectively runs on the string without it. -/
def coreOf (s : Str) : Str :=
  if s.getLast? = some '\n' then s.dropLast else s

/-- The leftmost match of the anchored parenthesized-group regex: find
the first opening parenthesis whose tail consists of newline-free text
closed by a final parenthesis; return the text before the match and the
captured group. -/
def wearSplit : Str → Option (Str × Str)
  | [] => none
  | c :: rest =>
    if c = '(' ∧ rest.getLast? = some ')' ∧ ∀ x ∈ rest.dropLast, x ≠ '\n' then
      some ([], rest.dropLast)
    else
      match wearSplit rest with
      | some (h, g) => some (c :: h, g)
      | none => none

/-- ItemMatcher.parse_item_name: extract a trailing parenthesized wear,
then split weapon from skin at the first pipe, falling back to the first
space, falling back to the whole string as the weapon. -/
def parse_item_name (name : Str) : Parts :=
  if name = [] then {}
  else
    let stage :=
      match wearSplit (coreOf name) with
      | some (h, g) => (some g, stripBoth h)
      | none => ((none : Option Str), name)
    let wearOpt := stage.1
    let base := stage.2
    match splitFirst '|' base with
    | some (l, r) =>
      { weapon := some (stripBoth l), skin := some (stripBoth r), wear := wearOpt }
    | none =>
      match splitFirst ' ' base with
      | some (pre, post) =>
        if pre ≠ [] then
          { weapon := some (stripBoth pre), skin := some (stripBoth (' ' :: post)),
            wear := wearOpt }
        else { weapon := some base, skin := some [], wear := wearOpt }
      | none => { weapon := some base, skin := some [], wear := wearOpt }

/-! ## Similarity scorer (ItemMatcher.similarity_score) -/

/-- Common prefix length of two character lists. -/
def cpl : Str → Str → Nat
  | x :: xs, y :: ys => if x = y then cpl xs ys + 1 else 0
  | _, _ => 0

/-- The naturals below n, in order. -/
def upTo : Nat → List Nat
  | 0 => []
  | n+1 => 0 :: (upTo n).map (fun k => k + 1)

/-- All index pairs of the two strings, in lexicographic order, the
order in which the matcher scans candidate block starts. -/
def pairList (la lb : Nat) : List (Nat × Nat) :=
  (upTo la).flatMap (fun i => (upTo lb).map (fun j => (i, j)))

/-- One candidate block start: keep the incumbent unless the run from
this pair is strictly longer, which realizes the lowest-start tie
breaking of find_longest_match. -/
def lmStep (a b : Str) (best : Nat × Nat × Nat) (p : Nat × Nat) :
    Nat × Nat × Nat :=
  let k := cpl (a.drop p.1) (b.drop p.2)
  if best.2.2 < k then (p.1, p.2, k) else best

/-- Fold over candidate pairs, forcing the incumbent at each step. -/
def lmFold (a b : Str) : Nat × Nat × Nat → List (Nat × Nat) → Nat × Nat × Nat
  | best, [] => best
  | best, p :: ps =>
    match lmStep a b best p with
    | (i, j, k) => lmFold a b (i, j, k) ps

/-- find_longest_match of SequenceMatcher without junk: the longest
matching block, earliest in the first string and then in the second. -/
def longestMatch (a b : Str) : Nat × Nat × Nat :=
  lmFold a b (0, 0, 0) (pairList a.length b.length)

/-- Total size of the matching blocks of get_matching_blocks: take the
longest block and recurse on both sides.  Fuelled; each recursive call
strictly shortens the first string, so its length plus one suffices. -/
def matchTotalF : Nat → Str → Str → Nat
  | 0, _, _ => 0
  | fuel+1, a, b =>
    let m := longestMatch a b
    if m.2.2 = 0 then 0
    else
      matchTotalF fuel (a.take m.1) (b.take m.2.1) + m.2.2 +
        matchTotalF fuel (a.drop (m.1 + m.2.2)) (b.drop (m.2.1 + m.2.2))

/-- Total matched size between two strings. -/
def matchTotalR (a b : Str) : Nat := matchTotalF (a.length + 1) a b

/-- SequenceMatcher.ratio: twice the matched size over the total length
(one when both strings are empty). -/
def seqScore (a b : Str) : Q :=
  if a.length + b.length = 0 then ⟨1, 1⟩
  else qOfFrac (2 * matchTotalR a b) (a.length + b.length)

/-- The token term of the scorer: Jaccard and Dice similarity of the
whitespace token sets, taking the larger; zero when either set is empty. -/
def tokenScore (t1 t2 : Str) : Q :=
  let s1 := (words t1).toFinset
  let s2 := (words t2).toFinset
  if s1 = ∅ ∨ s2 = ∅ then ⟨0, 1⟩
  else
    let i := (s1 ∩ s2).card
    qmax (qOfFrac i (s1 ∪ s2).card) (qOfFrac (2 * i) (s1.card + s2.card))

/-- The containment term of the scorer: when one string occurs inside
the other, the ratio of the shorter to the longer length. -/
def containScore (t1 t2 : Str) : Q :=
  if occursIn t1 t2 || occursIn t2 t1 then
    if 0 < max t1.length t2.length then
      qOfFrac (min t1.length t2.length) (max t1.length t2.length)
    else ⟨0, 1⟩
  else ⟨0, 1⟩

/-- ItemMatcher.similarity_score: zero when either input is empty, else
the fixed weighted combination of the three signals. -/
def similarity_score (t1 t2 : Str) : Q :=
  if t1 = [] ∨ t2 = [] then ⟨0, 1⟩
  else
    qadd (qadd (qmul (seqScore t1 t2) ⟨50, 100⟩) (qmul (tokenScore t1 t2) ⟨30, 100⟩))
      (qmul (containScore t1 t2) ⟨20, 100⟩)

/-! ## Catalog cache (ItemMatcher.load_items_cache) -/

/-- A raw catalog row.  Only the name column feeds the matching logic;
the remaining columns are opaque pass-through attributes. -/
structure RawRow where
  name : Option Str
deriving DecidableEq

/-- A cached item record with the derived fields computed at load time. -/
structure Item where
  name : Str
  weapon : Str
  skin_name : Str
  wear : Str
  normalized : Str
  base_name : Str
  base_normalized : Str
deriving DecidableEq

/-- Build one cache record from a raw row: absent fields become empty
strings via dict.get defaults, the parser fills the components, and the
normalizer fills the normalized forms. -/
def buildItem (r : RawRow) : Item :=
  let full_name := r.name.getD []
  let parts := parse_item_name full_name
  let weapon := (parts.weapon).getD []
  let skin := (parts.skin).getD []
  let base_name := weapon ++ str " | " ++ skin
  { name := full_name
    weapon := weapon
    skin_name := skin
    wear := (parts.wear).getD []
    normalized := normalize_text full_name
    base_name := base_name
    base_normalized := normalize_text base_name }

/-- ItemMatcher.load_items_cache: every fetched row becomes one record. -/
def load_items_cache (rows : List RawRow) : List Item := rows.map buildItem

/-! ## Matching engine (ItemMatcher.match_item) -/

/-- A match candidate: an item together with its score. -/
structure Cand where
  item : Item
  score : Q
deriving DecidableEq

/-- The significant tokens: tokens longer than two characters, at most
the first two of them. -/
def significantTokens (tokens : List Str) : List Str :=
  (tokens.filter (fun t => 2 < t.length)).take 2

/-- Stage one of the cascade: when the normalized text has at least two
tokens and a significant token exists, keep the catalog records whose
base normalized name contains all significant tokens, scored against the
base name with the 1.2 boost capped at one, thresholded before capping. -/
def tokenStage (items : List Item) (nt : Str) (tq : Q) : List Cand :=
  if nt ≠ [] ∧ 2 ≤ (words nt).length then
    let sig := significantTokens (words nt)
    if sig ≠ [] then
      items.filterMap (fun it =>
        if sig.all (fun t => occursIn t it.base_normalized) then
          let adj := qmul (similarity_score nt it.base_normalized) ⟨12, 10⟩
          if qle tq adj then some ⟨it, qmin adj ⟨1, 1⟩⟩ else none
        else none)
    else []
  else []

/-- Stage two of the cascade: when the parser produced both weapon and
skin, keep records whose base normalized name contains both normalized
components, scored against the base name. -/
def componentStage (items : List Item) (nt : Str) (p : Parts) (tq : Q) :
    List Cand :=
  if truthy p.weapon && truthy p.skin then
    let wn := normalize_text (p.weapon.getD [])
    let sn := normalize_text (p.skin.getD [])
    items.filterMap (fun it =>
      if occursIn wn it.base_normalized && occursIn sn it.base_normalized then
        let bs := similarity_score nt it.base_normalized
        if qle tq bs then some ⟨it, bs⟩ else none
      else none)
  else []

/-- Stage three of the cascade: score every record by the best of full
similarity, base similarity and, when both components exist on both
sides with positive scores, the 0.4/0.6 weighted component score. -/
def exhaustiveStage (items : List Item) (nt : Str) (p : Parts) (tq : Q) :
    List Cand :=
  items.filterMap (fun it =>
    let full := similarity_score nt it.normalized
    let base := similarity_score nt it.base_normalized
    let wm :=
      if truthy p.weapon && !it.weapon.isEmpty then
        similarity_score (normalize_text (p.weapon.getD [])) (normalize_text it.weapon)
      else ⟨0, 1⟩
    let sm :=
      if truthy p.skin && !it.skin_name.isEmpty then
        similarity_score (normalize_text (p.skin.getD [])) (normalize_text it.skin_name)
      else ⟨0, 1⟩
    let cm :=
      if qlt ⟨0, 1⟩ wm && qlt ⟨0, 1⟩ sm then
        qadd (qmul wm ⟨4, 10⟩) (qmul sm ⟨6, 10⟩)
      else ⟨0, 1⟩
    let mx := qmax full (qmax base cm)
    if qle tq mx then some ⟨it, mx⟩ else none)

/-- Stable insertion into a sorted list: the inserted element goes after
every element the keep relation holds for, which realizes the stability
of the Python sort. -/
def insertS (keep : α → α → Bool) (x : α) : List α → List α
  | [] => [x]
  | y :: ys => if keep y x then y :: insertS keep x ys else x :: y :: ys

/-- Stable sort: earlier elements are inserted last, ahead of later
elements with equal keys. -/
def ssort (keep : α → α → Bool) : List α → List α
  | [] => []
  | x :: xs => insertS keep x (ssort keep xs)

/-- Descending stable order on candidate scores: an earlier candidate
stays ahead of a later one unless the later has a strictly larger score. -/
def scoreKeep (y x : Cand) : Bool := qlt x.score y.score

/-- Python list slicing ls[:n] with an arbitrary integer bound. -/
def pySlice (bound : Int) (l : List α) : List α :=
  if 0 ≤ bound then l.take bound.toNat
  else l.take ((l.length : Int) + bound).toNat

/-- ItemMatcher.match_item: empty input short-circuits; otherwise the
three-stage cascade runs, each later stage only when the earlier ones
produced nothing, and the kept candidates are sorted by descending score
and cut to the requested count. -/
def match_item (items : List Item) (extracted_text : Str) (max_results : Int)
    (threshold : ℚ) : List Cand :=
  if extracted_text = [] ∨ stripBoth extracted_text = [] then []
  else
    let tq : Q := ⟨threshold.num, threshold.den⟩
    let nt := normalize_text extracted_text
    let p := parse_item_name extracted_text
    let m1 := tokenStage items nt tq
    let ms :=
      if m1 ≠ [] then m1
      else
        let m2 := componentStage items nt p tq
        if m2 ≠ [] then m2 else exhaustiveStage items nt p tq
    pySlice max_results (ssort scoreKeep ms)

/-! ## Wear variations (ItemMatcher.get_all_wear_variations) -/

/-- The canonical wear tiers in display order. -/
def wearConditions : List Str :=
  [str "Factory New", str "Minimal Wear", str "Field-Tested",
   str "Well-Worn", str "Battle-Scarred"]

/-- Position of a wear among the canonical tiers; the length of the list
when absent, exactly as the index call followed by the fallback on
ValueError computes. -/
def wearIndex (w : Str) : List Str → Nat
  | [] => 0
  | c :: rest => if c = w then 0 else wearIndex w rest + 1

/-- The sort key of a variation. -/
def wearKey (it : Item) : Nat := wearIndex it.wear wearConditions

/-- Ascending stable order on wear keys. -/
def wearKeep (y x : Item) : Bool := decide (wearKey y < wearKey x)

/-- ItemMatcher.get_all_wear_variations: return the item alone when
either component is missing; otherwise the cache records with string
equal weapon and skin, sorted by canonical wear order, or the item
alone when none exist.  The initial falsy-dict guard of the source is
unreachable for cache records, which always carry their keys. -/
def get_all_wear_variations (items : List Item) (base_item : Item) : List Item :=
  if base_item.weapon = [] ∨ base_item.skin_name = [] then [base_item]
  else
    let variations := items.filter (fun it =>
      it.weapon == base_item.weapon && it.skin_name == base_item.skin_name)
    if variations = [] then [base_item]
    else ssort wearKeep variations

/-! ## Confidence classifier (ItemMatcher.match_with_confidence) -/

/-- The match report returned to the caller. -/
structure Report where
  status : String
  confidence : Option String
  score : Option Q
  matchList : List Cand
  best_match : Option Item
  all_wear_variations : List Item
deriving DecidableEq

/-- ItemMatcher.match_with_confidence: run the matcher with the default
result count, return the no-match report on an empty result, otherwise
classify the best score with the fixed 0.85 and 0.65 boundaries and
attach the wear variations of the best match. -/
def match_with_confidence (items : List Item) (extracted_text : Str)
    (threshold : ℚ) : Report :=
  let ms := match_item items extracted_text 5 threshold
  match ms with
  | [] =>
    { status := "no_match", confidence := none, score := none, matchList := [],
      best_match := none, all_wear_variations := [] }
  | best :: rest =>
    { status := "matched"
      confidence :=
        some (if qlt ⟨85, 100⟩ best.score then "high"
          else if qlt ⟨65, 100⟩ best.score then "medium" else "low")
      score := some best.score
      matchList := best :: rest
      best_match := some best.item
      all_wear_variations := get_all_wear_variations items best.item }

/-! ## The token scan as the specification words it (for claim C5) -/

/-- Modelled from the spec: the token-prefilter stage as section 4.5
describes it, running whenever at least one significant token exists,
with no requirement of two raw tokens.  Stated for comparison with the
tokenStage of the source. -/
def tokenStageSpec (items : List Item) (nt : Str) (tq : Q) : List Cand :=
  let sig := significantTokens (words nt)
  if sig ≠ [] then
    items.filterMap (fun it =>
      if sig.all (fun t => occursIn t it.base_normalized) then
        let adj := qmul (similarity_score nt it.base_normalized) ⟨12, 10⟩
        if qle tq adj then some ⟨it, qmin adj ⟨1, 1⟩⟩ else none
      else none)
  else []

/-! ## Concrete fixtures used by counterexamples and witnesses -/

/-- A one-row catalog snapshot. -/
def negevRow : RawRow := { name := some (str "Negev | Bulkhead (Factory New)") }

/-- The record the cache builds from the one-row snapshot. -/
def negevItem : Item := buildItem negevRow

/-- The cache built from the one-row snapshot. -/
def negevCache : List Item := load_items_cache [negevRow]

/-- An item with a weapon but no skin, for exercising the wear resolver. -/
def lonelyItem : Item :=
  { name := str "x", weapon := str "negev", skin_name := [], wear := [],
    normalized := [], base_name := [], base_normalized := [] }

/-- A different record with the same weapon and skin as lonelyItem. -/
def otherItem : Item :=
  { name := str "y", weapon := str "negev", skin_name := [], wear := [],
    normalized := [], base_name := [], base_normalized := [] }

/-- The default threshold 0.4 as an explicit fraction. -/
def q25 : ℚ := qlit 2 5 (by norm_num) (by decide)

/-- An invalid negative threshold as an explicit fraction. -/
def qm1 : ℚ := qlit (-1) 1 (by norm_num) (by decide)

/-! # Helper lemmas -/

/-! ## Fraction bridges -/

theorem qmul_val (a b : Q) : (qmul a b).val = a.val * b.val := by
  simp only [qmul, Q.val]
  push_cast
  rw [div_mul_div_comm]

theorem qadd_val (a b : Q) (ha : a.d ≠ 0) (hb : b.d ≠ 0) :
    (qadd a b).val = a.val + b.val := by
  simp only [qadd, Q.val]
  push_cast
  rw [div_add_div _ _ (by exact_mod_cast ha) (by exact_mod_cast hb)]
  ring_nf

theorem qle_iff (a b : Q) (ha : 0 < a.d) (hb : 0 < b.d) :
    (qle a b = true ↔ a.val ≤ b.val) := by
  have ha' : (0 : ℚ) < (a.d : ℚ) := by exact_mod_cast ha
  have hb' : (0 : ℚ) < (b.d : ℚ) := by exact_mod_cast hb
  simp only [qle, Q.val, decide_eq_true_eq]
  rw [div_le_div_iff ha' hb']
  constructor
  · intro h; exact_mod_cast h
  · intro h; exact_mod_cast h

theorem qlt_iff (a b : Q) (ha : 0 < a.d) (hb : 0 < b.d) :
    (qlt a b = true ↔ a.val < b.val) := by
  have ha' : (0 : ℚ) < (a.d : ℚ) := by exact_mod_cast ha
  have hb' : (0 : ℚ) < (b.d : ℚ) := by exact_mod_cast hb
  simp only [qlt, Q.val, decide_eq_true_eq]
  rw [div_lt_div_iff ha' hb']
  constructor
  · intro h; exact_mod_cast h
  · intro h; exact_mod_cast h

theorem qOfFrac_nn (a b : Nat) : (qOfFrac a b).nn := by
  unfold qOfFrac Q.nn
  split
  · exact ⟨le_refl _, by norm_num⟩
  · refine ⟨by positivity, ?_⟩
    have hb : 0 < b := Nat.pos_of_ne_zero (by assumption)
    show (0 : ℤ) < (b : ℤ)
    exact_mod_cast hb

theorem qadd_nn {a b : Q} (ha : a.nn) (hb : b.nn) : (qadd a b).nn := by
  obtain ⟨ha1, ha2⟩ := ha
  obtain ⟨hb1, hb2⟩ := hb
  unfold qadd Q.nn
  constructor
  · show 0 ≤ a.n * b.d + b.n * a.d
    have h1 : 0 ≤ a.n * b.d := mul_nonneg ha1 (le_of_lt hb2)
    have h2 : 0 ≤ b.n * a.d := mul_nonneg hb1 (le_of_lt ha2)
    omega
  · show 0 < a.d * b.d
    exact mul_pos ha2 hb2

theorem qmul_nn {a b : Q} (ha : a.nn) (hb : b.nn) : (qmul a b).nn := by
  obtain ⟨ha1, ha2⟩ := ha
  obtain ⟨hb1, hb2⟩ := hb
  exact ⟨mul_nonneg ha1 hb1, mul_pos ha2 hb2⟩

theorem qmin_nn {a b : Q} (ha : a.nn) (hb : b.nn) : (qmin a b).nn := by
  unfold qmin; split
  · exact ha
  · exact hb

theorem qmax_nn {a b : Q} (ha : a.nn) (hb : b.nn) : (qmax a b).nn := by
  unfold qmax; split
  · exact ha
  · exact hb

theorem seqScore_nn (a b : Str) : (seqScore a b).nn := by
  unfold seqScore
  split
  · exact ⟨by norm_num, by norm_num⟩
  · exact qOfFrac_nn _ _

theorem tokenScore_nn (a b : Str) : (tokenScore a b).nn := by
  unfold tokenScore
  dsimp only
  split
  · exact ⟨le_refl _, by norm_num⟩
  · exact qmax_nn (qOfFrac_nn _ _) (qOfFrac_nn _ _)

theorem containScore_nn (a b : Str) : (containScore a b).nn := by
  unfold containScore
  split
  · split
    · exact qOfFrac_nn _ _
    · exact ⟨le_refl _, by norm_num⟩
  · exact ⟨le_refl _, by norm_num⟩

theorem similarity_score_nn (a b : Str) : (similarity_score a b).nn := by
  unfold similarity_score
  split
  · exact ⟨le_refl _, by norm_num⟩
  · exact qadd_nn
      (qadd_nn (qmul_nn (seqScore_nn _ _) ⟨by norm_num, by norm_num⟩)
        (qmul_nn (tokenScore_nn _ _) ⟨by norm_num, by norm_num⟩))
      (qmul_nn (containScore_nn _ _) ⟨by norm_num, by norm_num⟩)

theorem val_nonneg {x : Q} (hx : x.nn) : 0 ≤ x.val := by
  obtain ⟨h1, h2⟩ := hx
  unfold Q.val
  have h1' : (0 : ℚ) ≤ (x.n : ℚ) := by exact_mod_cast h1
  have h2' : (0 : ℚ) ≤ (x.d : ℚ) := by exact_mod_cast le_of_lt h2
  exact div_nonneg h1' h2'

/-- A threshold with negative numerator and positive denominator passes
every well-formed score. -/
theorem qle_of_neg {t x : Q} (ht : t.n < 0) (htd : 0 < t.d) (hx : x.nn) :
    qle t x = true := by
  obtain ⟨hx1, hx2⟩ := hx
  simp only [qle, decide_eq_true_eq]
  have h1 : t.n * x.d < 0 := mul_neg_of_neg_of_pos ht hx2
  have h2 : 0 ≤ x.n * t.d := mul_nonneg hx1 (le_of_lt htd)
  omega

/-- The zero threshold passes every well-formed score. -/
theorem qle_zero {x : Q} (hx : x.nn) : qle ⟨0, 1⟩ x = true := by
  obtain ⟨hx1, hx2⟩ := hx
  simp only [qle, decide_eq_true_eq]
  nlinarith

theorem qlit_eq (n : Int) (d : Nat) (h1 : d ≠ 0) (h2 : n.natAbs.Coprime d) :
    qlit n d h1 h2 = (n : ℚ) / (d : ℚ) := (Rat.num_div_den _).symm

/-! ## Stable sort -/

theorem insertS_perm (keep : α → α → Bool) (x : α) (l : List α) :
    (insertS keep x l).Perm (x :: l) := by
  induction l with
  | nil => exact List.Perm.refl _
  | cons y ys ih =>
    unfold insertS
    split
    · exact ((ih.cons y).trans (List.Perm.swap x y ys))
    · exact List.Perm.refl _

theorem ssort_perm (keep : α → α → Bool) (l : List α) :
    (ssort keep l).Perm l := by
  induction l with
  | nil => exact List.Perm.refl _
  | cons x xs ih =>
    exact (insertS_perm keep x (ssort keep xs)).trans (ih.cons x)

theorem mem_ssort {keep : α → α → Bool} {l : List α} {a : α} :
    a ∈ ssort keep l ↔ a ∈ l := (ssort_perm keep l).mem_iff

theorem pySlice_sublist (bound : Int) (l : List α) :
    (pySlice bound l).Sublist l := by
  unfold pySlice
  split
  · exact List.take_sublist _ _
  · exact List.take_sublist _ _

/-! ## Shape of the cascade stages -/

theorem filterMap_item_sublist {l : List Item} {g : Item → Option Cand}
    (hg : ∀ x c, g x = some c → c.item = x) :
    ((l.filterMap g).map Cand.item).Sublist l := by
  induction l with
  | nil => simp
  | cons x xs ih =>
    rw [List.filterMap_cons]
    cases hgx : g x with
    | none => exact ih.cons x
    | some c =>
      rw [List.map_cons, hg x c hgx]
      exact ih.cons₂ x

theorem tokenStage_shape (items : List Item) (nt : Str) (tq : Q) :
    ((tokenStage items nt tq).map Cand.item).Sublist items ∧
      ∀ c ∈ tokenStage items nt tq, c.item ∈ items ∧ c.score.nn := by
  have hg : ∀ (x : Item) (c : Cand),
      (if (significantTokens (words nt)).all (fun t => occursIn t x.base_normalized) then
          (if qle tq (qmul (similarity_score nt x.base_normalized) ⟨12, 10⟩) then
            some ⟨x, qmin (qmul (similarity_score nt x.base_normalized) ⟨12, 10⟩) ⟨1, 1⟩⟩
          else none)
        else none) = some c →
      c.item = x ∧ c.score.nn := by
    intro x c h
    split at h
    · split at h
      · cases h
        exact ⟨rfl, qmin_nn (qmul_nn (similarity_score_nn _ _)
          ⟨by norm_num, by norm_num⟩) ⟨by norm_num, by norm_num⟩⟩
      · cases h
    · cases h
  unfold tokenStage
  split
  · dsimp only
    split
    · constructor
      · exact filterMap_item_sublist (fun x c h => (hg x c h).1)
      · intro c hc
        obtain ⟨a, ha, hga⟩ := List.mem_filterMap.mp hc
        obtain ⟨h1, h2⟩ := hg a c hga
        exact ⟨h1 ▸ ha, h2⟩
    · simp
  · simp

theorem componentStage_shape (items : List Item) (nt : Str) (p : Parts) (tq : Q) :
    ((componentStage items nt p tq).map Cand.item).Sublist items ∧
      ∀ c ∈ componentStage items nt p tq, c.item ∈ items ∧ c.score.nn := by
  have hg : ∀ (wn sn : Str) (x : Item) (c : Cand),
      (if occursIn wn x.base_normalized && occursIn sn x.base_normalized then
          (if qle tq (similarity_score nt x.base_normalized) then
            some ⟨x, similarity_score nt x.base_normalized⟩
          else none)
        else none) = some c →
      c.item = x ∧ c.score.nn := by
    intro wn sn x c h
    split at h
    · split at h
      · cases h
        exact ⟨rfl, similarity_score_nn _ _⟩
      · cases h
    · cases h
  unfold componentStage
  split
  · dsimp only
    constructor
    · exact filterMap_item_sublist (fun x c h => (hg _ _ x c h).1)
    · intro c hc
      obtain ⟨a, ha, hga⟩ := List.mem_filterMap.mp hc
      obtain ⟨h1, h2⟩ := hg _ _ a c hga
      exact ⟨h1 ▸ ha, h2⟩
  · simp

theorem if_some_eq {α : Type} {b : Bool} {y c : α}
    (h : (if b then some y else none) = some c) : c = y := by
  cases b
  · simp at h
  · simp at h
    exact h.symm

theorem ite_sim_nn (cond : Prop) [Decidable cond] (a b : Str) :
    Q.nn (if cond then similarity_score a b else ⟨0, 1⟩) := by
  split
  · exact similarity_score_nn _ _
  · exact ⟨le_refl _, by norm_num⟩

theorem cm_nn {wm sm : Q} (hw : wm.nn) (hs : sm.nn) :
    Q.nn (if qlt ⟨0, 1⟩ wm && qlt ⟨0, 1⟩ sm then
        qadd (qmul wm ⟨4, 10⟩) (qmul sm ⟨6, 10⟩)
      else ⟨0, 1⟩) := by
  split
  · exact qadd_nn (qmul_nn hw ⟨by norm_num, by norm_num⟩)
      (qmul_nn hs ⟨by norm_num, by norm_num⟩)
  · exact ⟨le_refl _, by norm_num⟩

theorem exhaustiveStage_shape (items : List Item) (nt : Str) (p : Parts) (tq : Q) :
    ((exhaustiveStage items nt p tq).map Cand.item).Sublist items ∧
      ∀ c ∈ exhaustiveStage items nt p tq, c.item ∈ items ∧ c.score.nn := by
  have hg : ∀ (x : Item) (c : Cand),
      (let full := similarity_score nt x.normalized
       let base := similarity_score nt x.base_normalized
       let wm :=
         if truthy p.weapon && !x.weapon.isEmpty then
           similarity_score (normalize_text (p.weapon.getD []))
             (normalize_text x.weapon)
         else (⟨0, 1⟩ : Q)
       let sm :=
         if truthy p.skin && !x.skin_name.isEmpty then
           similarity_score (normalize_text (p.skin.getD []))
             (normalize_text x.skin_name)
         else (⟨0, 1⟩ : Q)
       let cm :=
         if qlt ⟨0, 1⟩ wm && qlt ⟨0, 1⟩ sm then
           qadd (qmul wm ⟨4, 10⟩) (qmul sm ⟨6, 10⟩)
         else (⟨0, 1⟩ : Q)
       let mx := qmax full (qmax base cm)
       if qle tq mx then some ⟨x, mx⟩ else none) = some c →
      c.item = x ∧ c.score.nn := by
    intro x c h
    dsimp only at h
    obtain rfl := if_some_eq h
    refine ⟨rfl, ?_⟩
    apply qmax_nn (similarity_score_nn _ _)
    apply qmax_nn (similarity_score_nn _ _)
    exact cm_nn (ite_sim_nn _ _ _) (ite_sim_nn _ _ _)
  unfold exhaustiveStage
  constructor
  · exact filterMap_item_sublist (fun x c h => (hg x c h).1)
  · intro c hc
    obtain ⟨a, ha, hga⟩ := List.mem_filterMap.mp hc
    obtain ⟨h1, h2⟩ := hg a c hga
    exact ⟨h1 ▸ ha, h2⟩

/-! ## Shape of a whole matching call -/

theorem match_item_eq (items : List Item) (text : Str) (mr : Int) (th : ℚ) :
    match_item items text mr th = [] ∨
      ∃ ms : List Cand,
        ((ms.map Cand.item).Sublist items ∧ ∀ c ∈ ms, c.item ∈ items ∧ c.score.nn) ∧
          match_item items text mr th = pySlice mr (ssort scoreKeep ms) := by
  unfold match_item
  split
  · exact Or.inl rfl
  · right
    dsimp only
    split
    · exact ⟨_, tokenStage_shape items _ _, rfl⟩
    · split
      · exact ⟨_, componentStage_shape items _ _ _, rfl⟩
      · exact ⟨_, exhaustiveStage_shape items _ _ _, rfl⟩

theorem match_item_count (items : List Item) (text : Str) (mr : Int) (th : ℚ)
    (r : Item) :
    ((match_item items text mr th).map Cand.item).count r ≤ items.count r := by
  rcases match_item_eq items text mr th with h | ⟨ms, ⟨hsub, _⟩, heq⟩
  · simp [h]
  · rw [heq]
    calc ((pySlice mr (ssort scoreKeep ms)).map Cand.item).count r
        ≤ ((ssort scoreKeep ms).map Cand.item).count r :=
          ((pySlice_sublist mr (ssort scoreKeep ms)).map Cand.item).count_le r
      _ = (ms.map Cand.item).count r :=
          ((ssort_perm scoreKeep ms).map Cand.item).count_eq r
      _ ≤ items.count r := hsub.count_le r

theorem match_item_mem {items : List Item} {text : Str} {mr : Int} {th : ℚ}
    {c : Cand} (hc : c ∈ match_item items text mr th) :
    c.item ∈ items ∧ c.score.nn := by
  rcases match_item_eq items text mr th with h | ⟨ms, ⟨_, hmem⟩, heq⟩
  · rw [h] at hc
    cases hc
  · rw [heq] at hc
    exact hmem c (mem_ssort.mp ((pySlice_sublist _ _).subset hc))

theorem match_item_nodup (items : List Item) (text : Str) (mr : Int) (th : ℚ)
    (h : items.Nodup) :
    ((match_item items text mr th).map Cand.item).Nodup := by
  rcases match_item_eq items text mr th with heq | ⟨ms, ⟨hsub, _⟩, heq⟩
  · simp [heq]
  · rw [heq]
    have h1 : (ms.map Cand.item).Nodup := hsub.nodup h
    have h2 : ((ssort scoreKeep ms).map Cand.item).Nodup :=
      (((ssort_perm scoreKeep ms).map Cand.item).nodup_iff).mpr h1
    exact (((pySlice_sublist mr (ssort scoreKeep ms)).map Cand.item)).nodup h2

/-! ## Wear variations always contain a cached base item -/

theorem gawv_self_mem {items : List Item} {b : Item} (hb : b ∈ items) :
    b ∈ get_all_wear_variations items b ∧ get_all_wear_variations items b ≠ [] := by
  unfold get_all_wear_variations
  split
  · exact ⟨List.mem_cons_self _ _, by simp⟩
  · dsimp only
    split
    · exact ⟨List.mem_cons_self _ _, by simp⟩
    · have hbf : b ∈ items.filter (fun it =>
          it.weapon == b.weapon && it.skin_name == b.skin_name) := by
        rw [List.mem_filter]
        exact ⟨hb, by simp⟩
      have hm : b ∈ ssort wearKeep (items.filter (fun it =>
          it.weapon == b.weapon && it.skin_name == b.skin_name)) :=
        mem_ssort.mpr hbf
      constructor
      · exact hm
      · intro hnil
        rw [hnil] at hm
        cases hm

/-! ## Thresholds that pass every score give threshold-independent stages -/

theorem tokenStage_th (items : List Item) (nt : Str) {tqA tqB : Q}
    (hA : ∀ x : Q, x.nn → qle tqA x = true)
    (hB : ∀ x : Q, x.nn → qle tqB x = true) :
    tokenStage items nt tqA = tokenStage items nt tqB := by
  unfold tokenStage
  split
  · dsimp only
    split
    · apply List.filterMap_congr
      intro x _
      split
      · have hnn : Q.nn (qmul (similarity_score nt x.base_normalized) ⟨12, 10⟩) :=
          qmul_nn (similarity_score_nn _ _) ⟨by norm_num, by norm_num⟩
        rw [hA _ hnn, hB _ hnn]
      · rfl
    · rfl
  · rfl

theorem componentStage_th (items : List Item) (nt : Str) (p : Parts) {tqA tqB : Q}
    (hA : ∀ x : Q, x.nn → qle tqA x = true)
    (hB : ∀ x : Q, x.nn → qle tqB x = true) :
    componentStage items nt p tqA = componentStage items nt p tqB := by
  unfold componentStage
  split
  · dsimp only
    apply List.filterMap_congr
    intro x _
    split
    · have hnn := similarity_score_nn nt x.base_normalized
      rw [hA _ hnn, hB _ hnn]
    · rfl
  · rfl

theorem exhaustiveStage_th (items : List Item) (nt : Str) (p : Parts) {tqA tqB : Q}
    (hA : ∀ x : Q, x.nn → qle tqA x = true)
    (hB : ∀ x : Q, x.nn → qle tqB x = true) :
    exhaustiveStage items nt p tqA = exhaustiveStage items nt p tqB := by
  unfold exhaustiveStage
  apply List.filterMap_congr
  intro x _
  dsimp only
  have hnn := qmax_nn (similarity_score_nn nt x.normalized)
    (qmax_nn (similarity_score_nn nt x.base_normalized)
      (cm_nn
        (ite_sim_nn ((truthy p.weapon && !x.weapon.isEmpty) = true)
          (normalize_text (p.weapon.getD [])) (normalize_text x.weapon))
        (ite_sim_nn ((truthy p.skin && !x.skin_name.isEmpty) = true)
          (normalize_text (p.skin.getD [])) (normalize_text x.skin_name))))
  rw [hA _ hnn, hB _ hnn]

/-! # Claims -/

set_option maxRecDepth 8000

/-- C9: every candidate list returned by one matching call contains each
catalog record at most once: every cache entry occurs at least as often
in the cache as in the result, and a duplicate-free cache yields a
duplicate-free result. -/
theorem C9_no_duplicates : ∀ (items : List Item) (text : Str) (mr : Int) (th : ℚ),
    (∀ r : Item, ((match_item items text mr th).map Cand.item).count r ≤
      items.count r) ∧
    (items.Nodup → ((match_item items text mr th).map Cand.item).Nodup) := by
  intro items text mr th
  exact ⟨match_item_count items text mr th, match_item_nodup items text mr th⟩

/-- Witness for C9 at a concrete cache and input. -/
theorem C9_witness : negevCache.Nodup ∧
    ((match_item negevCache (str "Negev") 5 q25).map Cand.item).Nodup :=
  ⟨by decide, (C9_no_duplicates negevCache (str "Negev") 5 q25).2 (by decide)⟩

/-- C10: whenever the confidence report has status matched, the wear
variation sequence is nonempty and contains the best match itself. -/
theorem C10_best_in_variations : ∀ (items : List Item) (text : Str) (th : ℚ),
    (match_with_confidence items text th).status = "matched" →
    ∃ b, (match_with_confidence items text th).best_match = some b ∧
      b ∈ (match_with_confidence items text th).all_wear_variations ∧
      (match_with_confidence items text th).all_wear_variations ≠ [] := by
  intro items text th hst
  unfold match_with_confidence at hst ⊢
  dsimp only at hst ⊢
  cases hms : match_item items text 5 th with
  | nil =>
    rw [hms] at hst
    dsimp only at hst
    exact absurd hst (by decide)
  | cons c rest =>
    dsimp only
    have hc : c ∈ match_item items text 5 th := by
      rw [hms]
      exact List.mem_cons_self c rest
    obtain ⟨h1, h2⟩ := gawv_self_mem (match_item_mem hc).1
    exact ⟨c.item, rfl, h1, h2⟩

/-- Witness for C10 at a concrete matched call. -/
theorem C10_witness :
    (match_with_confidence negevCache (str "Negev") q25).status = "matched" ∧
    ∃ b, (match_with_confidence negevCache (str "Negev") q25).best_match = some b ∧
      b ∈ (match_with_confidence negevCache (str "Negev") q25).all_wear_variations ∧
      (match_with_confidence negevCache (str "Negev") q25).all_wear_variations ≠ [] :=
  ⟨by decide, C10_best_in_variations negevCache (str "Negev") q25 (by decide)⟩

/-- C4, counterexample: the wear resolver does not scan the cache for
every item that has at least one of the two components; an item with a
weapon but no skin is returned alone even when the cache holds a record
with string-equal components. -/
theorem C4_counterexample :
    ¬ (∀ (items : List Item) (b : Item),
        ((b.weapon = [] ∧ b.skin_name = []) →
          get_all_wear_variations items b = [b]) ∧
        ((b.weapon ≠ [] ∨ b.skin_name ≠ []) →
          ∀ x, x ∈ get_all_wear_variations items b ↔
            (x ∈ items ∧ x.weapon = b.weapon ∧ x.skin_name = b.skin_name))) := by
  intro h
  have h2 := ((h [otherItem] lonelyItem).2 (Or.inl (by decide)) lonelyItem).mp
    (by decide)
  exact absurd h2 (by decide)

/-- C4, amended: the resolver returns the item alone exactly when the
item lacks its weapon or its skin component, or when both are present
but no cache record matches; when both components are present and some
record matches, the result consists exactly of the cache records whose
weapon and skin_name are string-equal to those of the item. -/
theorem C4_amended : ∀ (items : List Item) (b : Item),
    ((b.weapon = [] ∨ b.skin_name = []) → get_all_wear_variations items b = [b]) ∧
    (b.weapon ≠ [] → b.skin_name ≠ [] →
      ((items.filter (fun it => it.weapon == b.weapon &&
          it.skin_name == b.skin_name)) = [] →
        get_all_wear_variations items b = [b]) ∧
      ((items.filter (fun it => it.weapon == b.weapon &&
          it.skin_name == b.skin_name)) ≠ [] →
        ∀ x, x ∈ get_all_wear_variations items b ↔
          (x ∈ items ∧ x.weapon = b.weapon ∧ x.skin_name = b.skin_name))) := by
  intro items b
  constructor
  · intro h
    unfold get_all_wear_variations
    split
    · rfl
    · rename_i hcon
      exact absurd h hcon
  · intro hw hs
    have hcond : ¬ (b.weapon = [] ∨ b.skin_name = []) := by
      rintro (h | h)
      exacts [hw h, hs h]
    constructor
    · intro hf
      unfold get_all_wear_variations
      rw [if_neg hcond]
      dsimp only
      rw [if_pos hf]
    · intro hf x
      unfold get_all_wear_variations
      rw [if_neg hcond]
      dsimp only
      rw [if_neg hf, mem_ssort]
      simp [List.mem_filter, Bool.and_eq_true, beq_iff_eq, and_assoc]

/-- Witness for C4 at a concrete item with both components present. -/
theorem C4_witness :
    (negevItem.weapon ≠ [] ∧ negevItem.skin_name ≠ [] ∧
      (negevCache.filter (fun it => it.weapon == negevItem.weapon &&
        it.skin_name == negevItem.skin_name)) ≠ []) ∧
    negevItem ∈ get_all_wear_variations negevCache negevItem := by
  refine ⟨⟨by decide, by decide, by decide⟩, ?_⟩
  exact (((C4_amended negevCache negevItem).2 (by decide) (by decide)).2 (by decide)
    negevItem).mpr ⟨by decide, rfl, rfl⟩

/-- C3, counterexample: rows missing the mandatory name field are not
skipped during cache construction; a one-row snapshot with a missing
name still builds a one-record cache. -/
theorem C3_counterexample :
    ¬ (∀ rows : List RawRow,
        (load_items_cache rows).length =
          (rows.filter (fun r => r.name.isSome)).length) := by
  intro h
  have h2 := h [{ name := none }]
  revert h2
  decide

/-- C3, amended: cache construction is total and keeps every raw row,
one record per row; a row missing the mandatory name yields a record
whose name and derived component fields are all empty strings, and
missing optional fields likewise never raise. -/
theorem C3_amended : ∀ rows : List RawRow,
    (load_items_cache rows).length = rows.length ∧
    ∀ r ∈ rows, r.name = none →
      buildItem r ∈ load_items_cache rows ∧ (buildItem r).name = [] ∧
      (buildItem r).weapon = [] ∧ (buildItem r).skin_name = [] ∧
      (buildItem r).wear = [] := by
  intro rows
  constructor
  · exact List.length_map rows buildItem
  · intro r hr hname
    obtain ⟨nm⟩ := r
    simp only at hname
    subst hname
    exact ⟨List.mem_map_of_mem buildItem hr, rfl, rfl, rfl, rfl⟩

/-- Witness for C3 at a one-row snapshot with a missing name. -/
theorem C3_witness :
    (load_items_cache [{ name := none }]).length =
      [({ name := none } : RawRow)].length ∧
    buildItem { name := none } ∈ load_items_cache [{ name := none }] ∧
    (buildItem { name := (none : Option Str) }).weapon = [] := by
  refine ⟨(C3_amended [{ name := none }]).1, ?_, ?_⟩
  · exact ((C3_amended [{ name := none }]).2 { name := none } (by decide) rfl).1
  · exact ((C3_amended [{ name := none }]).2 { name := none } (by decide) rfl).2.2.1

/-- C5, counterexample: the token-prefilter stage does not run for every
input with at least one significant token; a one-token input skips it
(the code requires two raw tokens first) and falls through to the
exhaustive stage, returning a different score. -/
theorem C5_counterexample :
    ¬ (∀ (items : List Item) (text : Str) (mr : Int) (th : ℚ),
        significantTokens (words (normalize_text text)) ≠ [] →
        tokenStageSpec items (normalize_text text) ⟨th.num, th.den⟩ ≠ [] →
        match_item items text mr th =
          pySlice mr (ssort scoreKeep
            (tokenStageSpec items (normalize_text text) ⟨th.num, th.den⟩))) := by
  intro h
  have h2 := h negevCache (str "Negev") 5 q25 (by decide) (by decide)
  exact absurd h2 (by decide)

/-- C5, amended: the token scan runs only when the normalized text has
at least two whitespace tokens; in that case, when it produces at least
one candidate clearing the threshold, the returned candidates are
exactly its candidates, sorted and truncated, and the later stages are
not consulted. -/
theorem C5_amended : ∀ (items : List Item) (text : Str) (mr : Int) (th : ℚ),
    stripBoth text ≠ [] →
    2 ≤ (words (normalize_text text)).length →
    tokenStage items (normalize_text text) ⟨th.num, th.den⟩ ≠ [] →
    match_item items text mr th =
      pySlice mr (ssort scoreKeep
        (tokenStage items (normalize_text text) ⟨th.num, th.den⟩)) := by
  intro items text mr th hstrip _ hm1
  have htext : ¬ (text = [] ∨ stripBoth text = []) := by
    rintro (h | h)
    · exact hstrip (by rw [h]; rfl)
    · exact hstrip h
  unfold match_item
  rw [if_neg htext]
  dsimp only
  rw [if_pos hm1]

/-- Witness for C5 at a two-token input that the token stage resolves. -/
theorem C5_witness :
    (stripBoth (str "Negev Bulkhead") ≠ [] ∧
      2 ≤ (words (normalize_text (str "Negev Bulkhead"))).length ∧
      tokenStage negevCache (normalize_text (str "Negev Bulkhead"))
        ⟨q25.num, q25.den⟩ ≠ []) ∧
    match_item negevCache (str "Negev Bulkhead") 5 q25 =
      pySlice 5 (ssort scoreKeep
        (tokenStage negevCache (normalize_text (str "Negev Bulkhead"))
          ⟨q25.num, q25.den⟩)) := by
  refine ⟨⟨by decide, by decide, by decide⟩, ?_⟩
  exact C5_amended negevCache (str "Negev Bulkhead") 5 q25 (by decide) (by decide)
    (by decide)

/-- C1, counterexample: a matching call with an invalid configuration
does not fail fast and does not withhold candidates; a negative
threshold still returns a nonempty candidate list. -/
theorem C1_counterexample :
    ¬ (∀ (items : List Item) (text : Str) (mr : Int) (th : ℚ),
        (th < 0 ∨ 1 < th ∨ mr ≤ 0) → match_item items text mr th = []) := by
  intro h
  have hneg : qm1 < 0 := by
    rw [qm1, qlit_eq]
    norm_num
  have h2 := h negevCache (str "Negev") 5 qm1 (Or.inl hneg)
  exact absurd h2 (by decide)

/-- C1, amended: the matching call performs no validation of threshold
or maxResults and never clamps them; it always returns a list computed
with the raw values.  A maxResults of zero truncates the result to the
empty list through slice semantics, and a negative threshold admits
every scored candidate, giving the same list as threshold zero. -/
theorem C1_amended : ∀ (items : List Item) (text : Str) (th : ℚ) (mr : Int),
    match_item items text 0 th = [] ∧
    (th < 0 → match_item items text mr th = match_item items text mr 0) := by
  intro items text th mr
  constructor
  · unfold match_item
    split
    · rfl
    · dsimp only
      unfold pySlice
      rw [if_pos (le_refl 0)]
      simp
  · intro hth
    have hA : ∀ x : Q, x.nn → qle ⟨th.num, (th.den : Int)⟩ x = true := by
      intro x hx
      refine qle_of_neg (Rat.num_neg.mpr hth) ?_ hx
      show (0 : Int) < (th.den : Int)
      exact_mod_cast th.pos
    have hB : ∀ x : Q, x.nn → qle ⟨(0 : ℚ).num, ((0 : ℚ).den : Int)⟩ x = true := by
      intro x hx
      have he : (⟨(0 : ℚ).num, ((0 : ℚ).den : Int)⟩ : Q) = ⟨0, 1⟩ := by
        rw [Rat.num_zero, Rat.den_zero]
        rfl
      rw [he]
      exact qle_zero hx
    unfold match_item
    split
    · rfl
    · dsimp only
      rw [tokenStage_th items _ hA hB, componentStage_th items _ _ hA hB,
        exhaustiveStage_th items _ _ hA hB]

/-- Witness for C1 at a concrete invalid threshold. -/
theorem C1_witness :
    qm1 < 0 ∧ match_item negevCache (str "Negev") 0 qm1 = [] ∧
    match_item negevCache (str "Negev") 5 qm1 =
      match_item negevCache (str "Negev") 5 0 := by
  have hneg : qm1 < 0 := by
    rw [qm1, qlit_eq]
    norm_num
  exact ⟨hneg, (C1_amended negevCache (str "Negev") qm1 5).1,
    (C1_amended negevCache (str "Negev") qm1 5).2 hneg⟩

/-- C8: the confidence classifier maps an empty match list to the
no-match report, and for a nonempty list labels the best score high
exactly when it exceeds 0.85, medium exactly when it exceeds 0.65
without exceeding 0.85, and low otherwise, the boundary values falling
in the lower tier. -/
theorem C8_confidence : ∀ (items : List Item) (text : Str) (th : ℚ),
    (match_item items text 5 th = [] →
      match_with_confidence items text th =
        { status := "no_match", confidence := none, score := none,
          matchList := [], best_match := none, all_wear_variations := [] }) ∧
    (∀ (c : Cand) (rest : List Cand), match_item items text 5 th = c :: rest →
      ((match_with_confidence items text th).confidence = some "high" ↔
        17/20 < c.score.val) ∧
      ((match_with_confidence items text th).confidence = some "medium" ↔
        (13/20 < c.score.val ∧ c.score.val ≤ 17/20)) ∧
      ((match_with_confidence items text th).confidence = some "low" ↔
        c.score.val ≤ 13/20)) := by
  intro items text th
  constructor
  · intro h
    unfold match_with_confidence
    rw [h]
  · intro c rest h
    have hnn : c.score.nn :=
      (match_item_mem (by rw [h]; exact List.mem_cons_self c rest)).2
    have h85 : qlt ⟨85, 100⟩ c.score = true ↔ 17/20 < c.score.val := by
      rw [qlt_iff ⟨85, 100⟩ c.score (by norm_num) hnn.2]
      have hv : (⟨85, 100⟩ : Q).val = 17/20 := by norm_num [Q.val]
      rw [hv]
    have h65 : qlt ⟨65, 100⟩ c.score = true ↔ 13/20 < c.score.val := by
      rw [qlt_iff ⟨65, 100⟩ c.score (by norm_num) hnn.2]
      have hv : (⟨65, 100⟩ : Q).val = 13/20 := by norm_num [Q.val]
      rw [hv]
    unfold match_with_confidence
    rw [h]
    dsimp only
    by_cases hA : qlt ⟨85, 100⟩ c.score = true
    · rw [if_pos hA]
      have hv : 17/20 < c.score.val := h85.mp hA
      refine ⟨iff_of_true rfl hv, iff_of_false (by decide) ?_,
        iff_of_false (by decide) ?_⟩
      · rintro ⟨-, hle⟩
        linarith
      · intro hle
        linarith
    · rw [if_neg hA]
      have hle : c.score.val ≤ 17/20 := not_lt.mp (fun hx => hA (h85.mpr hx))
      by_cases hB : qlt ⟨65, 100⟩ c.score = true
      · rw [if_pos hB]
        have hv : 13/20 < c.score.val := h65.mp hB
        refine ⟨iff_of_false (by decide) ?_, iff_of_true rfl ⟨hv, hle⟩,
          iff_of_false (by decide) ?_⟩
        · intro hx
          linarith
        · intro hx
          linarith
      · rw [if_neg hB]
        have hlo : c.score.val ≤ 13/20 := not_lt.mp (fun hx => hB (h65.mpr hx))
        refine ⟨iff_of_false (by decide) ?_, iff_of_false (by decide) ?_,
          iff_of_true rfl hlo⟩
        · intro hx
          linarith
        · rintro ⟨hx, -⟩
          linarith

/-- Witness for C8 covering the empty and the nonempty branch. -/
theorem C8_witness :
    match_with_confidence [] (str "abc") q25 =
      { status := "no_match", confidence := none, score := none,
        matchList := [], best_match := none, all_wear_variations := [] } ∧
    (match_with_confidence negevCache (str "Negev") q25).confidence =
      some "low" := by
  constructor
  · exact (C8_confidence [] (str "abc") q25).1 (by decide)
  · refine (((C8_confidence negevCache (str "Negev") q25).2
      ⟨negevItem, ⟨426600000, 798000000⟩⟩ [] (by decide)).2.2).mpr ?_
    norm_num [Q.val]

/-! ## Character-level facts about the normalizer -/

theorem toNat_lowerChar (c : Char) :
    (lowerChar c).toNat =
      if 65 ≤ c.toNat ∧ c.toNat ≤ 90 then c.toNat + 32 else c.toNat := by
  unfold lowerChar
  split
  · rename_i h
    unfold Char.ofNat
    split
    · rfl
    · rename_i hv
      exact absurd (Or.inl (by omega)) hv
  · rfl

theorem lowerChar_not_upper (c : Char) :
    ¬ (65 ≤ (lowerChar c).toNat ∧ (lowerChar c).toNat ≤ 90) := by
  rw [toNat_lowerChar]
  split <;> omega

theorem lowerChar_fix {c : Char} (h : ¬ (65 ≤ c.toNat ∧ c.toNat ≤ 90)) :
    lowerChar c = c := by
  unfold lowerChar
  rw [if_neg h]

theorem swap4_cases (x : Char) :
    (swapChar '8' 'b' (swapChar '5' 's' (swapChar '1' 'l' (swapChar '0' 'o' x)))
        = 'o' ∨
      swapChar '8' 'b' (swapChar '5' 's' (swapChar '1' 'l' (swapChar '0' 'o' x)))
        = 'l' ∨
      swapChar '8' 'b' (swapChar '5' 's' (swapChar '1' 'l' (swapChar '0' 'o' x)))
        = 's' ∨
      swapChar '8' 'b' (swapChar '5' 's' (swapChar '1' 'l' (swapChar '0' 'o' x)))
        = 'b') ∨
    swapChar '8' 'b' (swapChar '5' 's' (swapChar '1' 'l' (swapChar '0' 'o' x))) = x := by
  by_cases h0 : x = '0'
  · subst h0
    exact Or.inl (Or.inl (by decide))
  by_cases h1 : x = '1'
  · subst h1
    exact Or.inl (Or.inr (Or.inl (by decide)))
  by_cases h5 : x = '5'
  · subst h5
    exact Or.inl (Or.inr (Or.inr (Or.inl (by decide))))
  by_cases h8 : x = '8'
  · subst h8
    exact Or.inl (Or.inr (Or.inr (Or.inr (by decide))))
  · right
    simp [swapChar, h0, h1, h5, h8]

theorem normChar_idem (c : Char) : normChar (normChar c) = normChar c := by
  have hLu := lowerChar_not_upper c
  unfold normChar
  rcases swap4_cases (lowerChar c) with (h | h | h | h) | he
  · rw [h]; decide
  · rw [h]; decide
  · rw [h]; decide
  · rw [h]; decide
  · rw [he]
    by_cases hw : (isWordChar (lowerChar c) || wsB (lowerChar c)) = true
    · have hcl : cleanChar (lowerChar c) = lowerChar c := by
        unfold cleanChar
        rw [if_pos hw]
      rw [hcl, lowerChar_fix hLu, he, hcl]
    · have hcl : cleanChar (lowerChar c) = ' ' := by
        unfold cleanChar
        rw [if_neg hw]
      rw [hcl]
      decide

theorem map_id_of_fix {f : Char → Char} {l : Str} (h : ∀ c ∈ l, f c = c) :
    l.map f = l := by
  rw [List.map_congr_left (g := id) h]
  exact List.map_id l

/-! ## Substring removal facts -/

theorem removeAllF_sublist (fuel : Nat) (pat : Str) (s : Str) :
    (removeAllF fuel pat s).Sublist s := by
  induction fuel generalizing s with
  | zero => exact List.Sublist.refl s
  | succ f ih =>
    cases s with
    | nil => exact List.Sublist.refl []
    | cons c rest =>
      show (if pat ≠ [] ∧ leadsWith pat (c :: rest) = true then
          removeAllF f pat ((c :: rest).drop pat.length)
        else c :: removeAllF f pat rest).Sublist (c :: rest)
      split
      · exact (ih _).trans (List.drop_sublist _ _)
      · exact (ih rest).cons₂ c

theorem foldl_removeAll_sublist (ps : List Str) (t : Str) :
    (ps.foldl (fun t p => removeAll p t) t).Sublist t := by
  induction ps generalizing t with
  | nil => exact List.Sublist.refl t
  | cons p ps ih =>
    exact (ih (removeAll p t)).trans (removeAllF_sublist _ _ _)

theorem removeAllF_of_not_occurs (fuel : Nat) (pat : Str) :
    ∀ s : Str, occursIn pat s = false → removeAllF fuel pat s = s := by
  induction fuel with
  | zero => intro s _; rfl
  | succ f ih =>
    intro s hs
    cases s with
    | nil => rfl
    | cons c rest =>
      have hor : (leadsWith pat (c :: rest) || occursIn pat rest) = false := hs
      rw [Bool.or_eq_false_iff] at hor
      show (if pat ≠ [] ∧ leadsWith pat (c :: rest) = true then
          removeAllF f pat ((c :: rest).drop pat.length)
        else c :: removeAllF f pat rest) = c :: rest
      rw [if_neg (by
        rintro ⟨-, hlw⟩
        rw [hor.1] at hlw
        cases hlw)]
      rw [ih rest hor.2]

theorem foldl_removeAll_id (ps : List Str) (t : Str)
    (h : ∀ p ∈ ps, occursIn p t = false) :
    ps.foldl (fun t p => removeAll p t) t = t := by
  induction ps with
  | nil => rfl
  | cons p ps ih =>
    show ps.foldl _ (removeAll p t) = t
    rw [show removeAll p t = t from removeAllF_of_not_occurs _ _ t
      (h p (List.mem_cons_self p ps))]
    exact ih (fun q hq => h q (List.mem_cons_of_mem p hq))

/-! ## Whitespace normalization facts -/

theorem wordsF_fuel : ∀ (f1 f2 : Nat) (s : Str),
    s.length ≤ f1 → s.length ≤ f2 → wordsF f1 s = wordsF f2 s := by
  intro f1
  induction f1 with
  | zero =>
    intro f2 s h1 _
    have hs : s = [] := List.length_eq_zero.mp (Nat.le_zero.mp h1)
    subst hs
    cases f2 <;> rfl
  | succ f ih =>
    intro f2 s h1 h2
    cases s with
    | nil => cases f2 <;> rfl
    | cons c rest =>
      cases f2 with
      | zero =>
        rw [List.length_cons] at h2
        omega
      | succ g =>
        show (if wsB c then wordsF f rest
            else (c :: rest.takeWhile (fun x => !wsB x)) ::
              wordsF f (rest.dropWhile (fun x => !wsB x))) =
          (if wsB c then wordsF g rest
            else (c :: rest.takeWhile (fun x => !wsB x)) ::
              wordsF g (rest.dropWhile (fun x => !wsB x)))
        rw [List.length_cons] at h1 h2
        split
        · exact ih g rest (by omega) (by omega)
        · rw [ih g (rest.dropWhile (fun x => !wsB x))
            (le_trans (List.dropWhile_sublist _).length_le (by omega))
            (le_trans (List.dropWhile_sublist _).length_le (by omega))]

theorem words_cons_ws {c : Char} {rest : Str} (h : wsB c = true) :
    words (c :: rest) = words rest := by
  show wordsF (c :: rest).length (c :: rest) = wordsF rest.length rest
  rw [List.length_cons]
  show (if wsB c then wordsF rest.length rest
      else (c :: rest.takeWhile (fun x => !wsB x)) ::
        wordsF rest.length (rest.dropWhile (fun x => !wsB x))) =
    wordsF rest.length rest
  rw [if_pos h]

theorem words_cons_word {c : Char} {rest : Str} (h : wsB c = false) :
    words (c :: rest) = (c :: rest.takeWhile (fun x => !wsB x)) ::
      words (rest.dropWhile (fun x => !wsB x)) := by
  show wordsF (c :: rest).length (c :: rest) = _
  rw [List.length_cons]
  show (if wsB c then wordsF rest.length rest
      else (c :: rest.takeWhile (fun x => !wsB x)) ::
        wordsF rest.length (rest.dropWhile (fun x => !wsB x))) = _
  rw [if_neg (by simp [h])]
  rw [wordsF_fuel rest.length (rest.dropWhile (fun x => !wsB x)).length
    (rest.dropWhile (fun x => !wsB x))
    ((List.dropWhile_sublist _).length_le) (le_refl _)]
  rfl

theorem wordsF_good : ∀ (fuel : Nat) (s : Str), ∀ w ∈ wordsF fuel s,
    w ≠ [] ∧ ∀ c ∈ w, wsB c = false := by
  intro fuel
  induction fuel with
  | zero =>
    intro s w hw
    cases hw
  | succ f ih =>
    intro s w hw
    cases s with
    | nil => cases hw
    | cons c rest =>
      have hw2 : w ∈ (if wsB c then wordsF f rest
          else (c :: rest.takeWhile (fun x => !wsB x)) ::
            wordsF f (rest.dropWhile (fun x => !wsB x))) := hw
      by_cases hc : wsB c = true
      · rw [if_pos hc] at hw2
        exact ih rest w hw2
      · rw [if_neg (by simp [hc])] at hw2
        rcases List.mem_cons.mp hw2 with rfl | hw3
        · refine ⟨by simp, ?_⟩
          intro x hx
          rcases List.mem_cons.mp hx with rfl | hx2
          · exact Bool.not_eq_true _ ▸ (by simpa using hc)
          · have := List.mem_takeWhile_imp hx2
            simpa using this
        · exact ih _ w hw3

theorem words_good (s : Str) : ∀ w ∈ words s, w ≠ [] ∧ ∀ c ∈ w, wsB c = false :=
  wordsF_good s.length s

theorem wordsF_chars : ∀ (fuel : Nat) (s : Str), ∀ w ∈ wordsF fuel s,
    ∀ c ∈ w, c ∈ s := by
  intro fuel
  induction fuel with
  | zero =>
    intro s w hw
    cases hw
  | succ f ih =>
    intro s w hw
    cases s with
    | nil => cases hw
    | cons c rest =>
      have hw2 : w ∈ (if wsB c then wordsF f rest
          else (c :: rest.takeWhile (fun x => !wsB x)) ::
            wordsF f (rest.dropWhile (fun x => !wsB x))) := hw
      by_cases hc : wsB c = true
      · rw [if_pos hc] at hw2
        intro x hx
        exact List.mem_cons_of_mem c (ih rest w hw2 x hx)
      · rw [if_neg (by simp [hc])] at hw2
        rcases List.mem_cons.mp hw2 with rfl | hw3
        · intro x hx
          rcases List.mem_cons.mp hx with rfl | hx2
          · exact List.mem_cons_self _ _
          · exact List.mem_cons_of_mem c
              ((List.takeWhile_sublist _).subset hx2)
        · intro x hx
          exact List.mem_cons_of_mem c
            ((List.dropWhile_sublist _).subset (ih _ w hw3 x hx))

theorem mem_joinWords {c : Char} : ∀ {ws : List Str}, c ∈ joinWords ws →
    c = ' ' ∨ ∃ w ∈ ws, c ∈ w := by
  intro ws
  induction ws with
  | nil =>
    intro h
    cases h
  | cons w rest ih =>
    cases rest with
    | nil =>
      intro h
      exact Or.inr ⟨w, List.mem_cons_self _ _, h⟩
    | cons w2 rest2 =>
      intro h
      rcases List.mem_append.mp h with h1 | h2
      · exact Or.inr ⟨w, List.mem_cons_self _ _, h1⟩
      · rcases List.mem_cons.mp h2 with rfl | h3
        · exact Or.inl rfl
        · rcases ih h3 with h4 | ⟨w3, hw3, hc3⟩
          · exact Or.inl h4
          · exact Or.inr ⟨w3, List.mem_cons_of_mem w hw3, hc3⟩

theorem mem_squish {c : Char} {s : Str} (h : c ∈ squish s) :
    c = ' ' ∨ c ∈ s := by
  rcases mem_joinWords h with h1 | ⟨w, hw, hc⟩
  · exact Or.inl h1
  · exact Or.inr (wordsF_chars s.length s w hw c hc)

theorem takeWhile_append_hit {p : Char → Bool} {v : Char} :
    ∀ (u w : Str), (∀ x ∈ u, p x = true) → p v = false →
      (u ++ v :: w).takeWhile p = u ∧ (u ++ v :: w).dropWhile p = v :: w := by
  intro u
  induction u with
  | nil =>
    intro w _ hv
    constructor
    · rw [List.nil_append, List.takeWhile_cons, if_neg (by simp [hv])]
    · rw [List.nil_append, List.dropWhile_cons, if_neg (by simp [hv])]
  | cons a u ih =>
    intro w hu hv
    have ha : p a = true := hu a (List.mem_cons_self _ _)
    have hrec := ih w (fun x hx => hu x (List.mem_cons_of_mem a hx)) hv
    constructor
    · rw [List.cons_append, List.takeWhile_cons, if_pos ha, hrec.1]
    · rw [List.cons_append, List.dropWhile_cons, if_pos ha, hrec.2]

theorem words_joinWords : ∀ ws : List Str,
    (∀ w ∈ ws, w ≠ [] ∧ ∀ c ∈ w, wsB c = false) → words (joinWords ws) = ws := by
  intro ws
  induction ws with
  | nil =>
    intro _
    rfl
  | cons w rest ih =>
    intro h
    obtain ⟨hw1, hw2⟩ := h w (List.mem_cons_self _ _)
    obtain ⟨c, cw, rfl⟩ := List.exists_cons_of_ne_nil hw1
    have hc : wsB c = false := hw2 c (List.mem_cons_self _ _)
    have hcw : ∀ x ∈ cw, (fun x => !wsB x) x = true := by
      intro x hx
      simp [hw2 x (List.mem_cons_of_mem c hx)]
    cases rest with
    | nil =>
      show words (c :: cw) = [c :: cw]
      rw [words_cons_word hc, List.takeWhile_eq_self_iff.mpr hcw,
        List.dropWhile_eq_nil_iff.mpr hcw]
      rfl
    | cons w2 rest2 =>
      show words ((c :: cw) ++ ' ' :: joinWords (w2 :: rest2)) = _
      rw [List.cons_append, words_cons_word hc]
      obtain ⟨ht, hd⟩ := @takeWhile_append_hit (fun x => !wsB x) ' ' cw
        (joinWords (w2 :: rest2)) hcw (by decide)
      rw [ht, hd, words_cons_ws (by decide)]
      rw [ih (fun x hx => h x (List.mem_cons_of_mem (c :: cw) hx))]

theorem squish_idem (s : Str) : squish (squish s) = squish s := by
  show joinWords (words (joinWords (words s))) = squish s
  rw [words_joinWords (words s) (words_good s)]
  rfl

/-! ## The normalizer as one character map, removals, and a squish -/

theorem normChar_unfold (c : Char) : cleanChar (swapChar '8' 'b' (swapChar '5' 's'
    (swapChar '1' 'l' (swapChar '0' 'o' (lowerChar c))))) = normChar c := rfl

theorem maps_normChar (s : Str) : (((((s.map lowerChar).map (swapChar '0' 'o')).map
      (swapChar '1' 'l')).map (swapChar '5' 's')).map (swapChar '8' 'b')).map
        cleanChar = s.map normChar := by
  induction s with
  | nil => simp only [List.map_nil]
  | cons c t ih =>
    simp only [List.map_cons]
    rw [normChar_unfold, ih]

theorem normalize_text_eq (s : Str) (hs : s ≠ []) :
    normalize_text s =
      squish (fillerWords.foldl (fun t p => removeAll p t)
        (wearPhrases.foldl (fun t p => removeAll p t) (s.map normChar))) := by
  unfold normalize_text
  rw [if_neg hs]
  dsimp only
  rw [maps_normChar]

/-- C2, counterexample: the normalizer is not idempotent; deleting a
filler word can splice a new occurrence together, which only a second
pass removes. -/
theorem C2_counterexample :
    ¬ (∀ s : Str, normalize_text (normalize_text s) = normalize_text s) := by
  intro h
  have h2 := h (str "cacasese")
  revert h2
  decide

/-- C2, amended: the normalizer is idempotent on every input whose
normalized form contains no wear phrase and no filler word as a
substring; the counterexample shows the restriction is needed, since a
removal can create a new removable occurrence. -/
theorem C2_amended : ∀ s : Str,
    (∀ p ∈ wearPhrases ++ fillerWords, occursIn p (normalize_text s) = false) →
    normalize_text (normalize_text s) = normalize_text s := by
  intro s hocc
  by_cases hs : s = []
  · subst hs
    rfl
  by_cases ht : normalize_text s = []
  · rw [ht]
    rfl
  have hchar : ∀ c ∈ normalize_text s, normChar c = c := by
    intro c hc
    rw [normalize_text_eq s hs] at hc
    rcases mem_squish hc with rfl | hc2
    · decide
    · have hc3 : c ∈ s.map normChar :=
        (foldl_removeAll_sublist wearPhrases _).subset
          ((foldl_removeAll_sublist fillerWords _).subset hc2)
      obtain ⟨x, -, rfl⟩ := List.mem_map.mp hc3
      exact normChar_idem x
  rw [normalize_text_eq (normalize_text s) ht]
  rw [map_id_of_fix hchar,
    foldl_removeAll_id wearPhrases _
      (fun p hp => hocc p (List.mem_append_left _ hp)),
    foldl_removeAll_id fillerWords _
      (fun p hp => hocc p (List.mem_append_right _ hp))]
  conv_lhs => rw [normalize_text_eq s hs]
  conv_rhs => rw [normalize_text_eq s hs]
  exact squish_idem _

/-- Witness for C2 at an input whose normalized form is clean. -/
theorem C2_witness :
    (∀ p ∈ wearPhrases ++ fillerWords,
      occursIn p (normalize_text (str "Negev | Bulkhead")) = false) ∧
    normalize_text (normalize_text (str "Negev | Bulkhead")) =
      normalize_text (str "Negev | Bulkhead") :=
  ⟨by decide, C2_amended (str "Negev | Bulkhead") (by decide)⟩

/-! ## Self-similarity and symmetry of the scorer -/

theorem cpl_self (s : Str) : cpl s s = s.length := by
  induction s with
  | nil => rfl
  | cons c t ih =>
    show (if c = c then cpl t t + 1 else 0) = t.length + 1
    rw [if_pos rfl, ih]

theorem cpl_le_left (a b : Str) : cpl a b ≤ a.length := by
  induction a generalizing b with
  | nil =>
    cases b with
    | nil => exact Nat.le_refl 0
    | cons y ys => exact Nat.le_refl 0
  | cons x xs ih =>
    cases b with
    | nil => exact Nat.zero_le _
    | cons y ys =>
      show (if x = y then cpl xs ys + 1 else 0) ≤ xs.length + 1
      split
      · exact Nat.succ_le_succ (ih ys)
      · exact Nat.zero_le _

theorem lmFold_cons (a b : Str) (best : Nat × Nat × Nat) (p : Nat × Nat)
    (ps : List (Nat × Nat)) :
    lmFold a b best (p :: ps) = lmFold a b (lmStep a b best p) ps := by
  rcases h : lmStep a b best p with ⟨i, j, k⟩
  rw [lmFold, h]

theorem lmFold_stay (a b : Str) (i j k : Nat) (ps : List (Nat × Nat))
    (h : ∀ p ∈ ps, cpl (a.drop p.1) (b.drop p.2) ≤ k) :
    lmFold a b (i, j, k) ps = (i, j, k) := by
  induction ps with
  | nil => rfl
  | cons p ps ih =>
    have hst : lmStep a b (i, j, k) p = (i, j, k) := by
      unfold lmStep
      dsimp only
      rw [if_neg (Nat.not_lt.mpr (h p (List.mem_cons_self p ps)))]
    rw [lmFold_cons, hst]
    exact ih fun q hq => h q (List.mem_cons_of_mem _ hq)

theorem pairList_succ (n m : Nat) :
    pairList (n + 1) (m + 1) =
      (0, 0) :: (((upTo m).map (fun k => k + 1)).map (fun j => ((0 : Nat), j)) ++
        ((upTo n).map (fun k => k + 1)).flatMap
          (fun i => (upTo (m + 1)).map (fun j => (i, j)))) := by
  show (0 :: (upTo n).map (fun k => k + 1)).flatMap
      (fun i => (upTo (m + 1)).map (fun j => (i, j))) = _
  rw [List.flatMap_cons]
  show (0 :: (upTo m).map (fun k => k + 1)).map (fun j => ((0 : Nat), j)) ++
      ((upTo n).map (fun k => k + 1)).flatMap
        (fun i => (upTo (m + 1)).map (fun j => (i, j))) = _
  rw [List.map_cons, List.cons_append]

theorem longestMatch_self (s : Str) (hs : s ≠ []) :
    longestMatch s s = (0, 0, s.length) := by
  cases s with
  | nil => exact absurd rfl hs
  | cons c t =>
    have hL : (c :: t).length = t.length + 1 := rfl
    unfold longestMatch
    rw [hL, pairList_succ, lmFold_cons]
    have hstep : lmStep (c :: t) (c :: t) (0, 0, 0) (0, 0) = (0, 0, t.length + 1) := by
      unfold lmStep
      dsimp only
      rw [List.drop_zero, cpl_self, hL, if_pos (show 0 < t.length + 1 by omega)]
    rw [hstep]
    apply lmFold_stay
    intro p hp
    have h1 := cpl_le_left ((c :: t).drop p.1) ((c :: t).drop p.2)
    have h2 : ((c :: t).drop p.1).length ≤ (c :: t).length := by
      rw [List.length_drop]
      omega
    have h3 : (c :: t).length = t.length + 1 := rfl
    omega

theorem matchTotalF_nil (f : Nat) (b : Str) : matchTotalF f [] b = 0 := by
  cases f with
  | zero => rfl
  | succ f => rfl

theorem matchTotalR_self (s : Str) : matchTotalR s s = s.length := by
  by_cases hs : s = []
  · subst hs
    rfl
  · have h0 : 0 < s.length := List.length_pos.mpr hs
    have hm := longestMatch_self s hs
    have hd : s.drop s.length = [] := List.drop_length s
    unfold matchTotalR
    rw [matchTotalF]
    rw [hm]
    dsimp only
    rw [if_neg (by omega)]
    rw [List.take_zero, Nat.zero_add, hd, matchTotalF_nil]
    omega

theorem seqScore_self_val (s : Str) (hs : s ≠ []) : (seqScore s s).val = 1 := by
  have h0 : 0 < s.length := List.length_pos.mpr hs
  have hq : (0 : ℚ) < (s.length : ℚ) := by exact_mod_cast h0
  unfold seqScore
  rw [if_neg (by omega), matchTotalR_self]
  unfold qOfFrac
  rw [if_neg (by omega)]
  unfold Q.val
  dsimp only
  push_cast
  have h2 : (2 * (s.length : ℚ)) = (s.length : ℚ) + (s.length : ℚ) := by ring
  rw [h2, div_self (ne_of_gt (by linarith))]

theorem wordsFinset_ne_empty (s : Str) (hw : words s ≠ []) :
    (words s).toFinset ≠ ∅ := by
  intro he
  cases hwd : words s with
  | nil => exact hw hwd
  | cons x xs =>
    have hx : x ∈ (words s).toFinset := by
      rw [hwd]
      exact List.mem_toFinset.mpr (List.mem_cons_self x xs)
    rw [he] at hx
    exact Finset.not_mem_empty x hx

theorem qmax_frac_one (c : Nat) (hc : 0 < c) :
    (qmax (qOfFrac c c) (qOfFrac (2 * c) (c + c))).val = 1 := by
  have hcq : (0 : ℚ) < (c : ℚ) := by exact_mod_cast hc
  unfold qOfFrac
  rw [if_neg (by omega), if_neg (by omega)]
  unfold qmax
  split
  · unfold Q.val
    dsimp only
    push_cast
    rw [div_self (ne_of_gt hcq)]
  · unfold Q.val
    dsimp only
    push_cast
    have h2 : (2 * (c : ℚ)) = (c : ℚ) + (c : ℚ) := by ring
    rw [h2, div_self (ne_of_gt (by linarith))]

theorem tokenScore_self (s : Str) (hw : words s ≠ []) : (tokenScore s s).val = 1 := by
  have hne := wordsFinset_ne_empty s hw
  unfold tokenScore
  dsimp only
  rw [if_neg (by rintro (h | h) <;> exact hne h)]
  rw [Finset.inter_self, Finset.union_self]
  exact qmax_frac_one _ (Finset.card_pos.mpr (Finset.nonempty_iff_ne_empty.mpr hne))

theorem leadsWith_refl (s : Str) : leadsWith s s = true := by
  induction s with
  | nil => rfl
  | cons c t ih =>
    show (c == c && leadsWith t t) = true
    rw [ih]
    simp

theorem occursIn_self (s : Str) : occursIn s s = true := by
  cases s with
  | nil => rfl
  | cons c t =>
    show (leadsWith (c :: t) (c :: t) || occursIn (c :: t) t) = true
    rw [leadsWith_refl]
    rfl

theorem containScore_self (s : Str) (hs : s ≠ []) : (containScore s s).val = 1 := by
  have h0 : 0 < s.length := List.length_pos.mpr hs
  have hq : (0 : ℚ) < (s.length : ℚ) := by exact_mod_cast h0
  unfold containScore
  rw [occursIn_self, if_pos (show (true || true) = true from rfl),
    Nat.max_self, Nat.min_self, if_pos h0]
  unfold qOfFrac
  rw [if_neg (by omega)]
  unfold Q.val
  dsimp only
  push_cast
  rw [div_self (ne_of_gt hq)]

/-- C6, counterexample: self-similarity is not 1 for every non-empty
string.  On a whitespace-only input the token term is zero because the
token set is empty, so the score is 0.7, not 1. -/
theorem C6_counterexample :
    ¬ (∀ s : Str, s ≠ [] → (similarity_score s s).val = 1) := by
  intro h
  have h1 := h (str " ") (by decide)
  have e1 : similarity_score (str " ") (str " ") = ⟨1400000, 2000000⟩ := by decide
  rw [e1] at h1
  norm_num [Q.val] at h1

/-- C6, amended: self-similarity is 1 for every string with at least one
whitespace-delimited token; the counterexample shows the hypothesis
cannot be weakened to mere non-emptiness. -/
theorem C6_amended (s : Str) (hw : words s ≠ []) :
    (similarity_score s s).val = 1 := by
  have hs : s ≠ [] := fun h => hw (by rw [h]; rfl)
  unfold similarity_score
  rw [if_neg (by rintro (h | h) <;> exact hs h)]
  have d1 : (qmul (seqScore s s) ⟨50, 100⟩).d ≠ 0 :=
    ne_of_gt (qmul_nn (seqScore_nn s s) ⟨by norm_num, by norm_num⟩).2
  have d2 : (qmul (tokenScore s s) ⟨30, 100⟩).d ≠ 0 :=
    ne_of_gt (qmul_nn (tokenScore_nn s s) ⟨by norm_num, by norm_num⟩).2
  have d3 : (qadd (qmul (seqScore s s) ⟨50, 100⟩)
      (qmul (tokenScore s s) ⟨30, 100⟩)).d ≠ 0 :=
    ne_of_gt (qadd_nn (qmul_nn (seqScore_nn s s) ⟨by norm_num, by norm_num⟩)
      (qmul_nn (tokenScore_nn s s) ⟨by norm_num, by norm_num⟩)).2
  have d4 : (qmul (containScore s s) ⟨20, 100⟩).d ≠ 0 :=
    ne_of_gt (qmul_nn (containScore_nn s s) ⟨by norm_num, by norm_num⟩).2
  rw [qadd_val _ _ d3 d4, qadd_val _ _ d1 d2, qmul_val, qmul_val, qmul_val]
  rw [seqScore_self_val s hs, tokenScore_self s hw, containScore_self s hs]
  norm_num [Q.val]

/-- Witness for C6 at a one-token input. -/
theorem C6_witness :
    words (str "negev") ≠ [] ∧
      (similarity_score (str "negev") (str "negev")).val = 1 :=
  ⟨by decide, C6_amended (str "negev") (by decide)⟩

theorem tokenScore_comm (a b : Str) : tokenScore a b = tokenScore b a := by
  unfold tokenScore
  dsimp only
  rw [Finset.inter_comm, Finset.union_comm,
    Nat.add_comm ((words a).toFinset.card)]
  by_cases h : (words a).toFinset = ∅ ∨ (words b).toFinset = ∅
  · rw [if_pos h, if_pos (Or.symm h)]
  · rw [if_neg h, if_neg (fun hc => h (Or.symm hc))]

theorem containScore_comm (a b : Str) : containScore a b = containScore b a := by
  unfold containScore
  rw [Bool.or_comm, Nat.max_comm, Nat.min_comm]

/-- C7, counterexample: the scorer is not symmetric.  The sequence term
follows difflib, whose matched total depends on the argument order: with
the inputs tide and diet one order matches one character, the other two,
so the scores are 1/8 and 1/4. -/
theorem C7_counterexample :
    ¬ (∀ a b : Str, (similarity_score a b).val = (similarity_score b a).val) := by
  intro h
  have h1 := h (str "tide") (str "diet")
  have e1 : similarity_score (str "tide") (str "diet") = ⟨2000000, 16000000⟩ := by
    decide
  have e2 : similarity_score (str "diet") (str "tide") = ⟨4000000, 16000000⟩ := by
    decide
  rw [e1, e2] at h1
  norm_num [Q.val] at h1

/-- C7, amended: of the three signals combined by the scorer, the token
term and the containment term are symmetric in the two arguments; the
counterexample shows the remaining sequence term, and with it the whole
score, is not. -/
theorem C7_amended (a b : Str) :
    tokenScore a b = tokenScore b a ∧ containScore a b = containScore b a :=
  ⟨tokenScore_comm a b, containScore_comm a b⟩
